import Mathlib

/-!
Shallow embedding of `splash_simu.py` (water impact and immersion of a cone or
cylinder).  The script's global configuration block becomes a record
`Splash.Config K` over an arbitrary linear ordered field `K`; the floating
point constant `np.pi` becomes the field `pi` of the record, and the Python
functions `V_immerge`, `k_effectif`, `system`, the vectorized acceleration
pass, and the `argmax`/`argmin` based event extraction become Lean functions.
A Python division whose denominator can be zero is embedded through `Option`:
`none` marks an execution that reaches a division by a zero reference height
(plain floats raise `ZeroDivisionError`; numpy scalars emit a divide
warning).  Theorems are instantiated at `ℚ` for concrete evaluation and at
`ℝ` for the topological statements.
-/

namespace Splash

/-- The `SHAPE` tag of the script: `"cone"` or `"cylinder"`. -/
inductive Shape where
  | cone : Shape
  | cylinder : Shape
  deriving DecidableEq

/-- The global configuration block of `splash_simu.py`: shape tag, the
`CHOC_BRUTAL` flag (abrupt vs progressive immersion), and the physical
constants.  `pi` stands for the constant `np.pi`. -/
structure Config (K : Type) where
  SHAPE : Shape
  CHOC_BRUTAL : Bool
  pi : K
  g : K
  rho_eau : K
  rho_air : K
  C_d : K
  r : K
  m : K
  h_cone : K
  h : K

variable {K : Type} [LinearOrderedField K]

/-- Frontal area `A = np.pi*r**2`. -/
def Config.A (c : Config K) : K := c.pi * c.r ^ 2

/-- Reference volume: `1/3*np.pi*r**2*h_cone` when `SHAPE == "cone"`, else
`np.pi*r**2*h` (cylinder). -/
def Config.V_total (c : Config K) : K :=
  match c.SHAPE with
  | Shape.cone => 1 / 3 * c.pi * c.r ^ 2 * c.h_cone
  | Shape.cylinder => c.pi * c.r ^ 2 * c.h

/-- Air-side lumped quadratic drag coefficient `k_air = 0.5*rho_air*C_d*A`. -/
def Config.k_air (c : Config K) : K := 1 / 2 * c.rho_air * c.C_d * c.A

/-- Water-side lumped quadratic drag coefficient `k_eau = 0.5*rho_eau*C_d*A`. -/
def Config.k_eau (c : Config K) : K := 1 / 2 * c.rho_eau * c.C_d * c.A

/-- The shape's reference height, the spec's term for the quantity the two
shape branches divide by: `h_cone` for the cone, `h` for the cylinder. -/
def Config.href (c : Config K) : K :=
  match c.SHAPE with
  | Shape.cone => c.h_cone
  | Shape.cylinder => c.h

/-- Embedding of `V_immerge(z)`: submerged volume at depth `z` (positive
below the surface).  Branch structure follows the source exactly; in the cone
branch the division `z / h_cone` is guarded by `none` when `h_cone = 0`
(that guard is unreachable, because the branch requires `0 < z < h_cone`). -/
def V_immerge (c : Config K) (z : K) : Option K :=
  if c.CHOC_BRUTAL then some (if 0 ≤ z then c.V_total else 0)
  else if z ≤ 0 then some 0
  else
    match c.SHAPE with
    | Shape.cone =>
        if z < c.h_cone then
          if c.h_cone = 0 then none
          else some (c.V_total * (z / c.h_cone) ^ 3)
        else some c.V_total
    | Shape.cylinder =>
        if z < c.h then some (c.pi * c.r ^ 2 * z) else some c.V_total

/-- Embedding of `k_effectif(z)`: air/water interpolation of the quadratic
drag coefficient.  `alpha = min(z / reference_height, 1)`; the division is
marked `none` when the reference height is `0` and the dividing branch is
reached (Python: `ZeroDivisionError` for plain floats, `inf` with a runtime
warning for numpy scalars). -/
def k_effectif (c : Config K) (z : K) : Option K :=
  if c.CHOC_BRUTAL then some (if 0 ≤ z then c.k_eau else c.k_air)
  else if z ≤ 0 then some c.k_air
  else
    match c.SHAPE with
    | Shape.cone =>
        if c.h_cone = 0 then none
        else some ((1 - min (z / c.h_cone) 1) * c.k_air
                   + min (z / c.h_cone) 1 * c.k_eau)
    | Shape.cylinder =>
        if c.h = 0 then none
        else some ((1 - min (z / c.h) 1) * c.k_air
                   + min (z / c.h) 1 * c.k_eau)

/-- Embedding of `system(t, y)`: the right-hand side of the ODE.  Unpacks
`z, v = y`, returns `[v, a]` with `a = (F_poids - F_archi - F_frott)/m` where
`F_poids = m*g`, `F_archi = rho_eau*g*V_immerge(z)`,
`F_frott = k_effectif(z)*v*abs(v)`; fails iff a sub-call fails.  The time
argument `t` is taken but unused, exactly as in the source. -/
def system (c : Config K) (t : K) : K × K → Option (K × K)
  | (z, v) =>
    match V_immerge c z, k_effectif c z with
    | some V_imm, some k =>
        some (v, (c.m * c.g - c.rho_eau * c.g * V_imm - k * v * |v|) / c.m)
    | _, _ => none

/-- Embedding of the per-sample expression of the vectorized acceleration
pass (line 175 of the source):
`a = (m*g - rho_eau*g*V_immerge(z) - k_effectif(z)*v*abs(v))/m`. -/
def a_recompute (c : Config K) (z v : K) : Option K :=
  match V_immerge c z, k_effectif c z with
  | some V_imm, some k =>
      some ((c.m * c.g - c.rho_eau * c.g * V_imm - k * v * |v|) / c.m)
  | _, _ => none

/-- The whole vectorized acceleration pass of line 175, over the sampled
position and velocity arrays. -/
def a_line175 (c : Config K) (zl vl : List K) : List (Option K) :=
  (zl.zip vl).map fun p => a_recompute c p.1 p.2

/-- Index of the first `true` in a boolean list, if any. -/
def idxOfFirstTrue : List Bool → Option Nat
  | [] => none
  | b :: bs => if b then some 0 else (idxOfFirstTrue bs).map (· + 1)

/-- Embedding of `np.argmax` on a boolean array: index of the first `True`,
and `0` when every entry is `False` (numpy returns the first occurrence of
the maximal value, which is then the first `False`). -/
def argmaxBool (l : List Bool) : Nat := (idxOfFirstTrue l).getD 0

/-- Embedding of `np.argmin`: index of the first occurrence of the minimal
value (`0` on the empty list, where numpy raises). -/
def argmin : List K → Nat
  | [] => 0
  | [_] => 0
  | x :: y :: ys =>
      if x ≤ (y :: ys).getD (argmin (y :: ys)) x then 0
      else argmin (y :: ys) + 1

/-- Embedding of `idx_eau = np.argmax(z >= 0)`. -/
def idx_eau (z : List K) : Nat := argmaxBool (z.map fun zi => decide (0 ≤ zi))

/-- Embedding of `t_eau = t[idx_eau]`. -/
def t_eau (t z : List K) : K := t.getD (idx_eau z) 0

/-- Embedding of `idx_a_max = np.argmin(a)`. -/
def idx_a_max (a : List K) : Nat := argmin a

/-- Embedding of `t_a_max = t[idx_a_max]`. -/
def t_a_max (t a : List K) : K := t.getD (idx_a_max a) 0

/-- Embedding of `duree_impact = t_a_max - t_eau`. -/
def duree_impact (t z a : List K) : K := t_a_max t a - t_eau t z

/-- Embedding of `prof_choc = z[idx_a_max]`. -/
def prof_choc (z a : List K) : K := z.getD (idx_a_max a) 0

/-- Concrete rational configuration used by witnesses: progressive cone with
simple rational stand-ins for the physical constants. -/
def cfgW : Config ℚ :=
  { SHAPE := Shape.cone, CHOC_BRUTAL := false, pi := 3, g := 10,
    rho_eau := 1000, rho_air := 1, C_d := 1, r := 1, m := 50,
    h_cone := 1 / 4, h := 0 }

/-- Degenerate configuration: progressive cone whose reference height
`h_cone` is `0` (the invalid configuration of the spec's edge case). -/
def cfgZero : Config ℚ :=
  { SHAPE := Shape.cone, CHOC_BRUTAL := false, pi := 3, g := 10,
    rho_eau := 1000, rho_air := 1, C_d := 1, r := 1, m := 50,
    h_cone := 0, h := 0 }

/-- Concrete real configuration for the topological statements. -/
def cfgR : Config ℝ :=
  { SHAPE := Shape.cone, CHOC_BRUTAL := false, pi := 3, g := 10,
    rho_eau := 1000, rho_air := 1, C_d := 1, r := 1, m := 50,
    h_cone := 1, h := 0 }

/-- Sample times of a short trajectory that never reaches the water. -/
def tW : List ℚ := [0, 1, 2]

/-- Heights of that trajectory: every sample strictly above the surface. -/
def zW : List ℚ := [-5, -4, -3]

/-- Recomputed accelerations of that trajectory. -/
def aW : List ℚ := [10, 10, 10]

/-- Sample times of a tiny trajectory that does reach the water. -/
def tC : List ℚ := [0, 1]

/-- Heights of that trajectory: the second sample is below the surface. -/
def zC : List ℚ := [-1, 2]

/-- Recomputed accelerations of that trajectory. -/
def aC : List ℚ := [5, 3]

/-- The second component of `system` coincides with the per-sample expression
of the vectorized acceleration pass. -/
theorem system_snd_eq_a_recompute (c : Config K) (t z v : K) :
    (system c t (z, v)).map Prod.snd = a_recompute c z v := by
  unfold system a_recompute
  cases hV : V_immerge c z <;> cases hk : k_effectif c z <;> simp [hV, hk]

/-- C9: evaluating the Geometry Model and the Drag Blender at `z = 0` raises
no division error in either mode, even when the reference height is `0`: both
functions return, via the branch taken before any division by the reference
height, `V_total` and `k_eau` in Abrupt mode and `0` and `k_air` in
Progressive mode. -/
theorem surface_start_no_division (c : Config K) :
    V_immerge c 0 = some (if c.CHOC_BRUTAL then c.V_total else 0) ∧
    k_effectif c 0 = some (if c.CHOC_BRUTAL then c.k_eau else c.k_air) := by
  cases hb : c.CHOC_BRUTAL <;> simp [V_immerge, k_effectif, hb]

/-- C8: the acceleration recomputed by the post-integration vectorized pass
equals, at every state and at every sample index of the sampled arrays, the
`dv/dt` component returned by the Force Law `system`. -/
theorem a_recompute_refines_system (c : Config K) (t z v : K) :
    a_recompute c z v = (system c t (z, v)).map Prod.snd ∧
    ∀ (zl vl : List K) (i : Nat), i < (zl.zip vl).length →
      (a_line175 c zl vl).getD i none
        = (system c t (zl.getD i 0, vl.getD i 0)).map Prod.snd := by
  refine ⟨(system_snd_eq_a_recompute c t z v).symm, ?_⟩
  intro zl vl i hi
  have hz : i < zl.length := by
    simp only [List.length_zip, lt_min_iff] at hi
    exact hi.1
  have hv : i < vl.length := by
    simp only [List.length_zip, lt_min_iff] at hi
    exact hi.2
  have hlen : i < (a_line175 c zl vl).length := by
    simpa [a_line175] using hi
  rw [List.getD_eq_getElem _ _ hlen, List.getD_eq_getElem _ _ hz,
    List.getD_eq_getElem _ _ hv]
  simp only [a_line175, List.getElem_map, List.getElem_zip]
  exact (system_snd_eq_a_recompute c t _ _).symm

/-- C2 (the code violates the claim): the degenerate configuration —
Progressive immersion with a cone whose reference height `h_cone` is `0` —
is not rejected; the run proceeds, and as soon as the integration evaluates
the Drag Blender at a submerged state `z > 0`, the division `z / h_cone` by
the zero reference height is executed (marked `none` in the embedding). -/
theorem zero_height_config_reaches_division :
    cfgZero.CHOC_BRUTAL = false ∧ cfgZero.SHAPE = Shape.cone ∧
    cfgZero.h_cone = 0 ∧ k_effectif cfgZero (1 / 10) = none := by
  refine ⟨rfl, rfl, rfl, ?_⟩
  norm_num [k_effectif, cfgZero]

/-- C1 (the code violates the claim): on a trajectory in which no sample
satisfies `z ≥ 0`, `np.argmax(z >= 0)` returns index `0`, so the Extractor
reports the numeric contact time `t[0]`, a numeric impact duration and a
numeric depth at the acceleration peak, instead of an explicit no-contact
result with the timestamps absent. -/
theorem no_contact_yields_fabricated_metrics :
    (∀ i, i < zW.length → zW.getD i 0 < 0) ∧
    idx_eau zW = 0 ∧ t_eau tW zW = tW.getD 0 0 ∧
    duree_impact tW zW aW = 0 ∧ prof_choc zW aW = -5 := by
  refine ⟨?_, ?_, ?_, ?_, ?_⟩
  · intro i hi
    have h3 : i < 3 := by simpa [zW] using hi
    interval_cases i <;> norm_num [zW]
  · norm_num [idx_eau, zW, argmaxBool, idxOfFirstTrue]
  · norm_num [t_eau, idx_eau, zW, tW, argmaxBool, idxOfFirstTrue]
  · norm_num [duree_impact, t_a_max, t_eau, idx_a_max, idx_eau, argmin,
      argmaxBool, idxOfFirstTrue, tW, zW, aW]
  · norm_num [prof_choc, idx_a_max, argmin, zW, aW]

/-- C3: the Force Law returns `dz/dt = v` and
`dv/dt = (m*g - rho_eau*g*V_immerge(z) - k*v*abs(v))/m`; the drag term has
the sign of `v` whenever the drag coefficient is positive, and the result is
independent of the time argument. -/
theorem system_is_force_law (c : Config K) (t₁ t₂ z v V k : K)
    (hV : V_immerge c z = some V) (hk : k_effectif c z = some k) :
    system c t₁ (z, v)
      = some (v, (c.m * c.g - c.rho_eau * c.g * V - k * v * |v|) / c.m) ∧
    system c t₁ (z, v) = system c t₂ (z, v) ∧
    (0 < k →
      (0 < v → 0 < k * v * |v|) ∧ (v < 0 → k * v * |v| < 0) ∧
      (v = 0 → k * v * |v| = 0)) := by
  refine ⟨?_, rfl, ?_⟩
  · simp only [system, hV, hk]
  · intro hkpos
    refine ⟨?_, ?_, ?_⟩
    · intro hv
      exact mul_pos (mul_pos hkpos hv) (abs_pos.mpr hv.ne')
    · intro hv
      exact mul_neg_of_neg_of_pos (mul_neg_of_pos_of_neg hkpos hv)
        (abs_pos.mpr hv.ne)
    · intro hv
      simp [hv]

/-- Witness for C3 at a concrete configuration and state. -/
theorem system_is_force_law_witness :
    V_immerge cfgW (-5) = some 0 ∧ k_effectif cfgW (-5) = some (3 / 2) ∧
    system cfgW 0 (-5, 2)
      = some (2, (cfgW.m * cfgW.g - cfgW.rho_eau * cfgW.g * 0
                   - 3 / 2 * 2 * |(2 : ℚ)|) / cfgW.m) :=
  have hV : V_immerge cfgW (-5) = some 0 := by norm_num [V_immerge, cfgW]
  have hk : k_effectif cfgW (-5) = some (3 / 2) := by
    norm_num [k_effectif, cfgW, Config.k_air, Config.A]
  ⟨hV, hk, (system_is_force_law cfgW 0 1 (-5) 2 0 (3 / 2) hV hk).1⟩

/-- C4: in Progressive mode with positive reference height, the submerged
volume is `0` above the surface, follows the cubic law
`V_total*(z/h_cone)^3` on the cone ramp and the linear law `pi*r^2*z` on the
cylinder ramp, and equals `V_total` from the reference height on; `V_total`
is `1/3*pi*r^2*h_cone` for the cone and `pi*r^2*h` for the cylinder. -/
theorem V_immerge_progressive (c : Config K) (hb : c.CHOC_BRUTAL = false) :
    (∀ z, z < 0 → V_immerge c z = some 0) ∧
    (c.SHAPE = Shape.cone → 0 < c.h_cone →
      c.V_total = 1 / 3 * c.pi * c.r ^ 2 * c.h_cone ∧
      (∀ z, 0 ≤ z → z < c.h_cone →
        V_immerge c z = some (c.V_total * (z / c.h_cone) ^ 3)) ∧
      (∀ z, c.h_cone ≤ z → V_immerge c z = some c.V_total)) ∧
    (c.SHAPE = Shape.cylinder → 0 < c.h →
      c.V_total = c.pi * c.r ^ 2 * c.h ∧
      (∀ z, 0 ≤ z → z < c.h → V_immerge c z = some (c.pi * c.r ^ 2 * z)) ∧
      (∀ z, c.h ≤ z → V_immerge c z = some c.V_total)) := by
  refine ⟨?_, ?_, ?_⟩
  · intro z hz
    simp [V_immerge, hb, hz.le]
  · intro hs hh
    refine ⟨by simp [Config.V_total, hs], ?_, ?_⟩
    · intro z hz0 hzh
      rcases eq_or_lt_of_le hz0 with rfl | hz
      · norm_num [V_immerge, hb]
      · simp [V_immerge, hb, hs, hz.not_le, hzh, hh.ne']
    · intro z hz
      have hz0 : 0 < z := hh.trans_le hz
      simp [V_immerge, hb, hs, hz0.not_le, hz.not_lt]
  · intro hs hh
    refine ⟨by simp [Config.V_total, hs], ?_, ?_⟩
    · intro z hz0 hzh
      rcases eq_or_lt_of_le hz0 with rfl | hz
      · norm_num [V_immerge, hb]
      · simp [V_immerge, hb, hs, hz.not_le, hzh]
    · intro z hz
      have hz0 : 0 < z := hh.trans_le hz
      simp [V_immerge, hb, hs, hz0.not_le, hz.not_lt]

/-- Witness for C4 at a concrete configuration and ramp depth. -/
theorem V_immerge_progressive_witness :
    cfgW.CHOC_BRUTAL = false ∧ cfgW.SHAPE = Shape.cone ∧
    (0 : ℚ) < cfgW.h_cone ∧
    V_immerge cfgW (1 / 8) = some (cfgW.V_total * (1 / 8 / cfgW.h_cone) ^ 3) :=
  ⟨rfl, rfl, by norm_num [cfgW],
    ((V_immerge_progressive cfgW rfl).2.1 rfl (by norm_num [cfgW])).2.1
      (1 / 8) (by norm_num) (by norm_num [cfgW])⟩

/-- C5: in Progressive mode with positive reference height, the effective
drag coefficient is the linear blend `(1-α)*k_air + α*k_eau` with
`α = clamp(z / reference_height, 0, 1)`; it is exactly `k_air` for `z ≤ 0`,
exactly `k_eau` from the reference height on, and the blend is monotone in
the fraction whenever `k_air ≤ k_eau`. -/
theorem k_effectif_progressive_blend (c : Config K)
    (hb : c.CHOC_BRUTAL = false) (hh : 0 < c.href) :
    (∀ z, k_effectif c z =
      some ((1 - min (max (z / c.href) 0) 1) * c.k_air
            + min (max (z / c.href) 0) 1 * c.k_eau)) ∧
    (∀ z, z ≤ 0 → k_effectif c z = some c.k_air) ∧
    (∀ z, c.href ≤ z → k_effectif c z = some c.k_eau) ∧
    (c.k_air ≤ c.k_eau → ∀ a b : K, 0 ≤ a → a ≤ b → b ≤ 1 →
      (1 - a) * c.k_air + a * c.k_eau ≤ (1 - b) * c.k_air + b * c.k_eau) := by
  have hblend : ∀ z, k_effectif c z =
      some ((1 - min (max (z / c.href) 0) 1) * c.k_air
            + min (max (z / c.href) 0) 1 * c.k_eau) := by
    intro z
    cases hs : c.SHAPE
    all_goals
      simp only [Config.href, hs] at hh ⊢
    all_goals
      by_cases hz : z ≤ 0
      · have hdiv : z / _ ≤ 0 := div_nonpos_iff.mpr (Or.inr ⟨hz, hh.le⟩)
        rw [max_eq_right hdiv, min_eq_left zero_le_one]
        simp [k_effectif, hb, hz]
      · have hzpos : 0 < z := not_le.mp hz
        have hdiv : 0 ≤ z / _ := div_nonneg hzpos.le hh.le
        rw [max_eq_left hdiv]
        simp [k_effectif, hb, hz, hs, hh.ne']
  refine ⟨hblend, ?_, ?_, ?_⟩
  · intro z hz
    cases hs : c.SHAPE <;> simp [k_effectif, hb, hz]
  · intro z hz
    cases hs : c.SHAPE
    all_goals
      simp only [Config.href, hs] at hh hz
    all_goals
      have hzpos : 0 < z := hh.trans_le hz
      have h1 : min (z / _) 1 = 1 :=
        min_eq_right ((one_le_div hh).mpr hz)
      simp [k_effectif, hb, hzpos.not_le, hs, hh.ne', h1]
  · intro hkk a b ha hab hb1
    nlinarith [mul_nonneg (sub_nonneg.mpr hab) (sub_nonneg.mpr hkk)]

/-- Witness for C5 at a concrete configuration. -/
theorem k_effectif_progressive_blend_witness :
    cfgW.CHOC_BRUTAL = false ∧ (0 : ℚ) < cfgW.href ∧
    k_effectif cfgW 1 = some cfgW.k_eau :=
  have hh : (0 : ℚ) < cfgW.href := by norm_num [Config.href, cfgW]
  ⟨rfl, hh,
    (k_effectif_progressive_blend cfgW rfl hh).2.2.1 1
      (by norm_num [Config.href, cfgW])⟩

/-- A convex blend of two ordered values stays between them. -/
theorem blend_mem (ka ke α : K) (hkk : ka ≤ ke) (h0 : 0 ≤ α) (h1 : α ≤ 1) :
    ka ≤ (1 - α) * ka + α * ke ∧ (1 - α) * ka + α * ke ≤ ke := by
  constructor
  · nlinarith [mul_nonneg h0 (sub_nonneg.mpr hkk)]
  · nlinarith [mul_nonneg (sub_nonneg.mpr h1) (sub_nonneg.mpr hkk)]

/-- C10: with physically meaningful parameters (`pi`, `C_d` nonnegative and
air less dense than water), every coefficient the Drag Blender returns lies
in the closed interval between `k_air = 1/2*rho_air*C_d*A` and
`k_eau = 1/2*rho_eau*C_d*A`, in Abrupt mode as well as in Progressive mode
with positive reference height. -/
theorem k_effectif_bounded (c : Config K) (hpi : 0 ≤ c.pi) (hcd : 0 ≤ c.C_d)
    (hrho : c.rho_air ≤ c.rho_eau)
    (hmode : c.CHOC_BRUTAL = true ∨ 0 < c.href) :
    c.k_air = 1 / 2 * c.rho_air * c.C_d * c.A ∧
    c.k_eau = 1 / 2 * c.rho_eau * c.C_d * c.A ∧
    ∀ z k, k_effectif c z = some k → c.k_air ≤ k ∧ k ≤ c.k_eau := by
  have hA : 0 ≤ c.A := mul_nonneg hpi (sq_nonneg _)
  have hkk : c.k_air ≤ c.k_eau := by
    unfold Config.k_air Config.k_eau
    gcongr
  refine ⟨rfl, rfl, ?_⟩
  intro z k hk
  cases hb : c.CHOC_BRUTAL
  · have hh : 0 < c.href := by
      rcases hmode with h | h
      · rw [hb] at h
        exact absurd h (by simp)
      · exact h
    by_cases hz : z ≤ 0
    · simp [k_effectif, hb, hz] at hk
      rw [← hk]
      exact ⟨le_rfl, hkk⟩
    · have hzpos : 0 < z := not_le.mp hz
      cases hs : c.SHAPE
      all_goals
        simp only [Config.href, hs] at hh
      all_goals
        simp [k_effectif, hb, hz, hs, hh.ne'] at hk
        rw [← hk]
        exact blend_mem _ _ _ hkk
          (le_min (div_nonneg hzpos.le hh.le) zero_le_one) (min_le_right _ _)
  · simp [k_effectif, hb] at hk
    rcases le_or_lt 0 z with hz | hz
    · rw [if_pos hz] at hk
      rw [← hk]
      exact ⟨hkk, le_rfl⟩
    · rw [if_neg hz.not_le] at hk
      rw [← hk]
      exact ⟨le_rfl, hkk⟩

/-- Witness for C10 at a concrete configuration. -/
theorem k_effectif_bounded_witness :
    (0 : ℚ) ≤ cfgW.pi ∧ (0 : ℚ) ≤ cfgW.C_d ∧ cfgW.rho_air ≤ cfgW.rho_eau ∧
    (0 : ℚ) < cfgW.href ∧ cfgW.k_air ≤ cfgW.k_air ∧ cfgW.k_air ≤ cfgW.k_eau :=
  have hh : (0 : ℚ) < cfgW.href := by norm_num [Config.href, cfgW]
  have h1 : (0 : ℚ) ≤ cfgW.pi := by norm_num [cfgW]
  have h2 : (0 : ℚ) ≤ cfgW.C_d := by norm_num [cfgW]
  have h3 : cfgW.rho_air ≤ cfgW.rho_eau := by norm_num [cfgW]
  have hb := (k_effectif_bounded cfgW h1 h2 h3 (Or.inr hh)).2.2 0 cfgW.k_air
    (by norm_num [k_effectif, cfgW])
  ⟨h1, h2, h3, hh, hb.1, hb.2⟩

/-- When `idxOfFirstTrue` finds an index, that index is in range, holds
`true`, and every earlier entry is `false`. -/
theorem idxOfFirstTrue_spec (l : List Bool) (j : Nat)
    (h : idxOfFirstTrue l = some j) :
    j < l.length ∧ l.getD j false = true ∧
    ∀ i, i < j → l.getD i false = false := by
  induction l generalizing j with
  | nil => simp [idxOfFirstTrue] at h
  | cons b bs ih =>
    cases hb : b
    · rw [hb] at h
      simp only [idxOfFirstTrue, Bool.false_eq_true, if_false] at h
      obtain ⟨j', hj', hjj⟩ := Option.map_eq_some'.mp h
      subst hjj
      obtain ⟨h1, h2, h3⟩ := ih j' hj'
      refine ⟨by simpa using h1, by simpa using h2, ?_⟩
      intro i hi
      cases i with
      | zero => simp [hb]
      | succ i' =>
        rw [List.getD_cons_succ]
        exact h3 i' (by omega)
    · rw [hb] at h
      simp only [idxOfFirstTrue, if_true] at h
      obtain rfl : 0 = j := Option.some.inj h
      refine ⟨Nat.succ_pos _, by simp [hb], ?_⟩
      intro i hi
      exact absurd hi (Nat.not_lt_zero i)

/-- When some entry is `true`, `idxOfFirstTrue` finds an index. -/
theorem idxOfFirstTrue_isSome (l : List Bool)
    (hex : ∃ i, i < l.length ∧ l.getD i false = true) :
    ∃ j, idxOfFirstTrue l = some j := by
  induction l with
  | nil =>
    obtain ⟨i, hi, _⟩ := hex
    simp at hi
  | cons b bs ih =>
    cases hb : b
    · obtain ⟨i, hi, hgi⟩ := hex
      rw [hb] at hgi
      cases i with
      | zero => simp at hgi
      | succ i' =>
        obtain ⟨j, hj⟩ := ih ⟨i', by simp at hi; omega, by simpa using hgi⟩
        exact ⟨j + 1, by simp [idxOfFirstTrue, hb, hj]⟩
    · exact ⟨0, by simp [idxOfFirstTrue, hb]⟩

/-- The index returned by `argmin` is in range and attains the minimum. -/
theorem argmin_spec (l : List K) (hne : l ≠ []) :
    argmin l < l.length ∧
    ∀ j, j < l.length → l.getD (argmin l) 0 ≤ l.getD j 0 := by
  induction l with
  | nil => exact absurd rfl hne
  | cons x xs ih =>
    cases xs with
    | nil =>
      refine ⟨by simp [argmin], ?_⟩
      intro j hj
      have hj0 : j = 0 := by simpa using hj
      subst hj0
      exact le_rfl
    | cons y ys =>
      obtain ⟨hlt, hmin⟩ := ih (by simp)
      have hgd : (y :: ys).getD (argmin (y :: ys)) x
          = (y :: ys).getD (argmin (y :: ys)) 0 := by
        rw [List.getD_eq_getElem _ _ hlt, List.getD_eq_getElem _ _ hlt]
      by_cases hc : x ≤ (y :: ys).getD (argmin (y :: ys)) x
      · have hax : argmin (x :: y :: ys) = 0 := by
          simp only [argmin]
          rw [if_pos hc]
        rw [hax]
        refine ⟨Nat.succ_pos _, ?_⟩
        intro j hj
        cases j with
        | zero => exact le_rfl
        | succ j' =>
          rw [List.getD_cons_zero, List.getD_cons_succ]
          exact le_trans (hgd ▸ hc) (hmin j' (by simpa using hj))
      · have hax : argmin (x :: y :: ys) = argmin (y :: ys) + 1 := by
          simp only [argmin]
          rw [if_neg hc]
        rw [hax]
        refine ⟨by simpa using hlt, ?_⟩
        intro j hj
        cases j with
        | zero =>
          rw [List.getD_cons_succ, List.getD_cons_zero]
          exact (hgd ▸ not_le.mp hc).le
        | succ j' =>
          rw [List.getD_cons_succ, List.getD_cons_succ]
          exact hmin j' (by simpa using hj)

/-- C7: on a trajectory with at least one sample at or below the surface,
the Extractor's `idx_eau` is the first index with `z ≥ 0` and `t_eau` its
timestamp, `idx_a_max` attains the minimal signed acceleration and `t_a_max`
is its timestamp, the impact duration is their difference, and the depth at
the peak is the `z` value at `idx_a_max`. -/
theorem extractor_contact_and_peak (t z a : List K)
    (hlen : a.length = z.length)
    (hex : ∃ i, i < z.length ∧ 0 ≤ z.getD i 0) :
    idx_eau z < z.length ∧
    0 ≤ z.getD (idx_eau z) 0 ∧
    (∀ i, i < idx_eau z → z.getD i 0 < 0) ∧
    t_eau t z = t.getD (idx_eau z) 0 ∧
    idx_a_max a < a.length ∧
    (∀ j, j < a.length → a.getD (idx_a_max a) 0 ≤ a.getD j 0) ∧
    t_a_max t a = t.getD (idx_a_max a) 0 ∧
    duree_impact t z a = t_a_max t a - t_eau t z ∧
    prof_choc z a = z.getD (idx_a_max a) 0 := by
  obtain ⟨i, hi, hzi⟩ := hex
  have hmask : ∀ n, n < z.length →
      (z.map fun zi => decide (0 ≤ zi)).getD n false
        = decide (0 ≤ z.getD n 0) := by
    intro n hn
    have hn' : n < (z.map fun zi => decide (0 ≤ zi)).length := by simpa using hn
    rw [List.getD_eq_getElem _ _ hn', List.getD_eq_getElem _ _ hn]
    simp
  obtain ⟨j, hj⟩ := idxOfFirstTrue_isSome (z.map fun zi => decide (0 ≤ zi))
    ⟨i, by simpa using hi, by rw [hmask i hi]; exact decide_eq_true hzi⟩
  obtain ⟨hjlen, hjtrue, hjmin⟩ := idxOfFirstTrue_spec _ j hj
  have hje : idx_eau z = j := by
    simp [idx_eau, argmaxBool, hj]
  have hjlen' : j < z.length := by simpa using hjlen
  have hane : a ≠ [] := by
    intro h0
    rw [h0] at hlen
    simp at hlen
    omega
  obtain ⟨halen, hamin⟩ := argmin_spec a hane
  refine ⟨hje ▸ hjlen', ?_, ?_, rfl, halen, hamin, rfl, rfl, rfl⟩
  · rw [hje]
    have ht := hjtrue
    rw [hmask j hjlen'] at ht
    exact of_decide_eq_true ht
  · intro n hn
    rw [hje] at hn
    have hf := hjmin n hn
    rw [hmask n (hn.trans hjlen')] at hf
    exact not_le.mp (of_decide_eq_false hf)

/-- Witness for C7 on a tiny concrete trajectory. -/
theorem extractor_contact_and_peak_witness :
    aC.length = zC.length ∧ (∃ i, i < zC.length ∧ 0 ≤ zC.getD i 0) ∧
    0 ≤ zC.getD (idx_eau zC) 0 ∧ idx_a_max aC < aC.length :=
  have h1 : aC.length = zC.length := rfl
  have h2 : ∃ i, i < zC.length ∧ 0 ≤ zC.getD i 0 :=
    ⟨1, by norm_num [zC], by norm_num [zC]⟩
  have h := extractor_contact_and_peak tC zC aC h1 h2
  ⟨h1, h2, h.2.1, h.2.2.2.2.1⟩

/-- C6: the submerged volume always lies in `[0, V_total]`; in Progressive
mode with positive reference height it is the `some` of a continuous
function of `z`, non-decreasing on `z ≥ 0`, that reaches exactly `V_total`
at the reference height and stays `V_total` beyond; in Abrupt mode it is
exactly the two-valued step function — `0` below the surface, `V_total`
from it on — taking no intermediate values. -/
theorem V_immerge_invariants (c : Config ℝ) (hV : 0 ≤ c.V_total)
    (hmode : c.CHOC_BRUTAL = true ∨ 0 < c.href) :
    (∀ z V, V_immerge c z = some V → 0 ≤ V ∧ V ≤ c.V_total) ∧
    (c.CHOC_BRUTAL = false → ∃ f : ℝ → ℝ,
      Continuous f ∧ MonotoneOn f (Set.Ici 0) ∧
      (∀ z, V_immerge c z = some (f z)) ∧
      f c.href = c.V_total ∧ (∀ z, c.href ≤ z → f z = c.V_total)) ∧
    (c.CHOC_BRUTAL = true →
      (∀ z, V_immerge c z = some (if 0 ≤ z then c.V_total else 0)) ∧
      (∀ z V, V_immerge c z = some V → V = 0 ∨ V = c.V_total)) := by
  refine ⟨?_, ?_, ?_⟩
  · intro z V h
    cases hb : c.CHOC_BRUTAL
    · by_cases hz : z ≤ 0
      · simp [V_immerge, hb, hz] at h
        rw [← h]
        exact ⟨le_rfl, hV⟩
      · have hzpos : 0 < z := not_le.mp hz
        cases hs : c.SHAPE
        · by_cases hzh : z < c.h_cone
          · have hh : 0 < c.h_cone := hzpos.trans hzh
            simp [V_immerge, hb, hz, hs, hzh, hh.ne'] at h
            have hq0 : (0 : ℝ) ≤ z / c.h_cone := div_nonneg hzpos.le hh.le
            have hq1 : z / c.h_cone ≤ 1 := (div_le_one hh).mpr hzh.le
            rw [← h]
            constructor
            · exact mul_nonneg hV (pow_nonneg hq0 3)
            · exact mul_le_of_le_one_right hV (pow_le_one₀ hq0 hq1)
          · simp [V_immerge, hb, hz, hs, hzh] at h
            rw [← h]
            exact ⟨hV, le_rfl⟩
        · by_cases hzh : z < c.h
          · have hh : 0 < c.h := hzpos.trans hzh
            have hVc : (0 : ℝ) ≤ c.pi * c.r ^ 2 * c.h := by
              simpa only [Config.V_total, hs] using hV
            have hpir : (0 : ℝ) ≤ c.pi * c.r ^ 2 := by nlinarith
            simp [V_immerge, hb, hz, hs, hzh] at h
            rw [← h]
            refine ⟨mul_nonneg hpir hzpos.le, ?_⟩
            simp only [Config.V_total, hs]
            exact mul_le_mul_of_nonneg_left hzh.le hpir
          · simp [V_immerge, hb, hz, hs, hzh] at h
            rw [← h]
            exact ⟨hV, le_rfl⟩
    · simp [V_immerge, hb] at h
      by_cases hz : 0 ≤ z
      · rw [if_pos hz] at h
        rw [← h]
        exact ⟨hV, le_rfl⟩
      · rw [if_neg hz] at h
        rw [← h]
        exact ⟨le_rfl, hV⟩
  · intro hb
    cases hs : c.SHAPE
    · have hh : 0 < c.h_cone := by
        rcases hmode with h | h
        · rw [hb] at h
          exact absurd h (by simp)
        · simpa only [Config.href, hs] using h
      refine ⟨fun z => c.V_total * (min (max z 0 / c.h_cone) 1) ^ 3,
        ?_, ?_, ?_, ?_, ?_⟩
      · exact continuous_const.mul
          ((((continuous_id.max continuous_const).div_const _).min
            continuous_const).pow 3)
      · have hmono : Monotone fun z : ℝ =>
            c.V_total * (min (max z 0 / c.h_cone) 1) ^ 3 := by
          intro z1 z2 h12
          dsimp only
          have hq0 : (0 : ℝ) ≤ min (max z1 0 / c.h_cone) 1 :=
            le_min (div_nonneg (le_max_right _ _) hh.le) zero_le_one
          have hq12 : max z1 0 / c.h_cone ≤ max z2 0 / c.h_cone := by
            gcongr
          exact mul_le_mul_of_nonneg_left
            (pow_le_pow_left₀ hq0 (min_le_min hq12 le_rfl) 3) hV
        exact hmono.monotoneOn _
      · intro z
        dsimp only
        rcases le_or_lt z 0 with hz | hz
        · rw [max_eq_right hz, zero_div, min_eq_left zero_le_one]
          simp [V_immerge, hb, hz]
        · by_cases hzh : z < c.h_cone
          · rw [max_eq_left hz.le, min_eq_left ((div_le_one hh).mpr hzh.le)]
            simp [V_immerge, hb, hz.not_le, hzh, hh.ne', hs]
          · rw [max_eq_left hz.le,
              min_eq_right ((one_le_div hh).mpr (not_lt.mp hzh))]
            simp [V_immerge, hb, hz.not_le, hzh, hs]
      · dsimp only
        simp only [Config.href, hs]
        rw [max_eq_left hh.le, div_self hh.ne']
        norm_num
      · intro z hz
        dsimp only
        simp only [Config.href, hs] at hz
        rw [max_eq_left ((hh.trans_le hz).le),
          min_eq_right ((one_le_div hh).mpr hz)]
        norm_num
    · have hh : 0 < c.h := by
        rcases hmode with h | h
        · rw [hb] at h
          exact absurd h (by simp)
        · simpa only [Config.href, hs] using h
      have hVc : (0 : ℝ) ≤ c.pi * c.r ^ 2 * c.h := by
        simpa only [Config.V_total, hs] using hV
      have hpir : (0 : ℝ) ≤ c.pi * c.r ^ 2 := by nlinarith
      refine ⟨fun z => c.pi * c.r ^ 2 * min (max z 0) c.h,
        ?_, ?_, ?_, ?_, ?_⟩
      · exact continuous_const.mul
          ((continuous_id.max continuous_const).min continuous_const)
      · have hmono : Monotone fun z : ℝ =>
            c.pi * c.r ^ 2 * min (max z 0) c.h := by
          intro z1 z2 h12
          dsimp only
          exact mul_le_mul_of_nonneg_left
            (min_le_min (max_le_max h12 le_rfl) le_rfl) hpir
        exact hmono.monotoneOn _
      · intro z
        dsimp only
        rcases le_or_lt z 0 with hz | hz
        · rw [max_eq_right hz, min_eq_left hh.le]
          simp [V_immerge, hb, hz]
        · by_cases hzh : z < c.h
          · rw [max_eq_left hz.le, min_eq_left hzh.le]
            simp [V_immerge, hb, hz.not_le, hzh, hs]
          · rw [max_eq_left hz.le, min_eq_right (not_lt.mp hzh)]
            simp [V_immerge, hb, hz.not_le, hzh, Config.V_total, hs]
      · dsimp only
        simp only [Config.href, hs]
        rw [max_eq_left hh.le, min_self]
        simp [Config.V_total, hs]
      · intro z hz
        dsimp only
        simp only [Config.href, hs] at hz
        rw [max_eq_left ((hh.trans_le hz).le), min_eq_right hz]
        simp [Config.V_total, hs]
  · intro hb
    constructor
    · intro z
      simp [V_immerge, hb]
    · intro z V h
      simp [V_immerge, hb] at h
      by_cases hz : 0 ≤ z
      · rw [if_pos hz] at h
        exact Or.inr h.symm
      · rw [if_neg hz] at h
        exact Or.inl h.symm

/-- Witness for C6 at a concrete real configuration. -/
theorem V_immerge_invariants_witness :
    0 ≤ cfgR.V_total ∧ 0 < cfgR.href ∧
    ∀ z V, V_immerge cfgR z = some V → 0 ≤ V ∧ V ≤ cfgR.V_total :=
  have h1 : (0 : ℝ) ≤ cfgR.V_total := by norm_num [Config.V_total, cfgR]
  have h2 : (0 : ℝ) < cfgR.href := by norm_num [Config.href, cfgR]
  ⟨h1, h2, (V_immerge_invariants cfgR h1 (Or.inr h2)).1⟩

end Splash
